import Mathlib

/-!
Verification of `customize_icon_order.py`, an interactive tool that reorders
the comma-separated tokens of the `scanfor` and `showtools` directives in a
rEFInd configuration file.

Python strings are embedded as `List Char` (ASCII fragment). Python's string
primitives used by the script (`split('#', 1)[0]`, `lstrip('#')`, `lstrip()`,
`strip()`, `split(None, 1)`, `split()`, `split(',')`, `int(...)`, `sorted`,
list indexing, `readlines`) are modelled explicitly below. The interactive
`input()` calls of `reorder` are modelled by passing the response string as an
argument; `process_file` consumes responses from a supply `Nat → List Char`,
one per prompt, in file order. The `print` of the invalid-input message in
`reorder` is modelled as a Boolean flag in the result.
-/

namespace RefindGrid

/-- A Python string: a list of characters. -/
abbrev Line := List Char

/-- The ASCII whitespace characters recognised by Python's `str.split`,
`str.strip` and `str.lstrip` (space, tab, newline, carriage return,
vertical tab, form feed). -/
def isPySpace (c : Char) : Bool :=
  c == ' ' || c == '\t' || c == '\n' || c == '\r' || c == '\x0b' || c == '\x0c'

/-- Python `s.lstrip('#')`: drop the leading run of `#` characters. -/
def pyLstripHash (l : Line) : Line := l.dropWhile (· == '#')

/-- Python `s.lstrip()`: drop leading whitespace. -/
def pyLstripWs (l : Line) : Line := l.dropWhile isPySpace

/-- Python `s.rstrip()`: drop trailing whitespace. -/
def pyRstripWs (l : Line) : Line := (l.reverse.dropWhile isPySpace).reverse

/-- Python `s.strip()`: drop leading and trailing whitespace. -/
def pyStrip (l : Line) : Line := pyRstripWs (pyLstripWs l)

/-- Python `s.split('#', 1)[0]`: everything before the first `#`. -/
def beforeHash (l : Line) : Line := l.takeWhile (· != '#')

/-- Python `s.split(None, 1)`: split on the first run of whitespace into at
most two parts, discarding leading whitespace; the second part keeps its
trailing whitespace, and a second part that would be empty is omitted. -/
def pySplitNone1 (l : Line) : List Line :=
  let l1 := l.dropWhile isPySpace
  if l1.isEmpty then []
  else
    let w := l1.takeWhile (fun c => !isPySpace c)
    let r := (l1.dropWhile (fun c => !isPySpace c)).dropWhile isPySpace
    if r.isEmpty then [w] else [w, r]

/-- Python `s.split()` (no argument): split on runs of whitespace, never
producing empty pieces. -/
def pySplitWs (l : Line) : List Line :=
  (l.splitOnP isPySpace).filter (fun t => !t.isEmpty)

/-- Value of a digit run with Python's underscore separators: after an
initial digit, single underscores may stand between digits
(`int("1_0") = 10`); anything else fails. Accumulator form. -/
def pyDigitsGo (acc : Nat) : List Char → Option Nat
  | [] => some acc
  | '_' :: c :: cs =>
      if c.isDigit then pyDigitsGo (acc * 10 + (c.toNat - 48)) cs else none
  | ['_'] => none
  | c :: cs =>
      if c.isDigit then pyDigitsGo (acc * 10 + (c.toNat - 48)) cs else none

/-- A nonempty run of decimal digits (with Python's underscore grouping)
evaluated to a number; fails on anything else. -/
def pyDigits : List Char → Option Nat
  | [] => none
  | c :: cs => if c.isDigit then pyDigitsGo (c.toNat - 48) cs else none

/-- Digits with an optional leading sign. -/
def pyIntCore : List Char → Option Int
  | '+' :: cs => (pyDigits cs).map (fun n => (n : Int))
  | '-' :: cs => (pyDigits cs).map (fun n => -(n : Int))
  | cs => (pyDigits cs).map (fun n => (n : Int))

/-- Python `int(x)` on a string: surrounding whitespace is ignored, then an
optional sign followed by digits; `none` models the `ValueError` raised on
any other input. -/
def pyInt (l : Line) : Option Int := pyIntCore (pyStrip l)

/-- Python list indexing `items[i]` for an `int` index: nonnegative indices
count from the front, negative indices from the back. The script only
indexes after validating `0 ≤ i < len(items)`, so the `[]` default returned
out of range is never reached there. -/
def pyIndex (items : List Line) (i : Int) : Line :=
  if 0 ≤ i then items.getD i.toNat [] else items.getD (items.length - i.natAbs) []

/-- Python `sorted` on a list of ints: the unique `≤`-sorted permutation. -/
def pySorted (l : List Int) : List Int := List.insertionSort (· ≤ ·) l

/-- The list `[0, 1, ..., n-1]` as ints: Python `list(range(n))`. -/
def intRange (n : Nat) : List Int := (List.range n).map Int.ofNat

/-- `parse_directive(line)`: drop the inline comment (everything from the
first `#`), split off the directive keyword, and return the remainder's
comma-separated pieces, each stripped, empty pieces dropped. -/
def parse_directive (line : Line) : List Line :=
  match pySplitNone1 (beforeHash line) with
  | [_, rest] => ((rest.splitOn ',').map pyStrip).filter (fun t => !t.isEmpty)
  | _ => []

/-- `format_directive(name, items)`: the line `<name> <items joined by ,>`
followed by a newline. -/
def format_directive (name : Line) (items : List Line) : Line :=
  name ++ ' ' :: List.intercalate [','] items ++ ['\n']

/-- The `[int(x) - 1 for x in response.split()]` comprehension before the
subtraction: parse every token as an int, left to right; `none` models the
`ValueError` escaping the comprehension at the first bad token. -/
def pyIntList : List Line → Option (List Int)
  | [] => some []
  | t :: ts =>
    match pyInt t, pyIntList ts with
    | some n, some ns => some (n :: ns)
    | _, _ => none

/-- `reorder(items)` with the `input()` response made explicit. Returns the
resulting list together with a flag that is `true` exactly when the
`Invalid input; keeping existing order.` message is printed. -/
def reorder (items : List Line) (response : Line) : List Line × Bool :=
  if pyStrip response = [] then (items, false)
  else
    match pyIntList (pySplitWs (pyStrip response)) with
    | none => (items, true)
    | some ns =>
      let indices := ns.map (fun n => n - 1)
      if pySorted indices = intRange items.length then
        (indices.map (pyIndex items), false)
      else (items, true)

/-- A regex word character (`\w`, ASCII fragment): letter, digit or `_`. -/
def isWordChar (c : Char) : Bool := c.isAlphanum || c == '_'

/-- The literal `scanfor`. -/
def scanforKw : Line := ['s', 'c', 'a', 'n', 'f', 'o', 'r']

/-- The literal `showtools`. -/
def showtoolsKw : Line := ['s', 'h', 'o', 'w', 't', 'o', 'o', 'l', 's']

/-- A `\b` word boundary holds after a word character exactly when the rest
of the string is empty or starts with a non-word character. -/
def boundaryOk : Line → Bool
  | [] => true
  | c :: _ => !isWordChar c

/-- Match the lowercase literal `kw` at the start of `s`, case-insensitively,
followed by a word boundary (`kw\b` anchored at the start): on success,
return the matched text in its original case, as `re.Match.group(1)` does. -/
def matchKw (s kw : Line) : Option Line :=
  if (s.take kw.length).map Char.toLower = kw ∧ boundaryOk (s.drop kw.length) = true
  then some (s.take kw.length) else none

/-- `directive_pattern.match(s)` for `^(scanfor|showtools)\b` with
`re.IGNORECASE`: the alternation tries `scanfor`, then `showtools`; the
result is the text captured by group 1. -/
def detectDirective (s : Line) : Option Line :=
  match matchKw s scanforKw with
  | some t => some t
  | none => matchKw s showtoolsKw

/-- `line.lstrip('#').lstrip()`, the form of a line used for detection and
parsing in `process_file`. -/
def strippedOf (line : Line) : Line := pyLstripWs (pyLstripHash line)

/-- The per-line loop of `process_file`: `resp k` is the response the user
types at the `k`-th prompt; the counter advances only on lines where
`reorder` is invoked (detected directive lines with a nonempty token list). -/
def processLines : List Line → (Nat → Line) → Nat → List Line
  | [], _, _ => []
  | line :: rest, resp, k =>
    match detectDirective (strippedOf line) with
    | some name =>
      let items := parse_directive (strippedOf line)
      if items.isEmpty then line :: processLines rest resp k
      else
        format_directive name (reorder items (resp k)).1
          :: processLines rest resp (k + 1)
    | none => line :: processLines rest resp k

/-- Python `f.readlines()` on a text file already normalised to `\n` line
endings: split after each newline, keeping the newline at the end of each
line; a last line without a trailing newline is kept as is. -/
def readlinesGo (cur : Line) : Line → List Line
  | [] => if cur.isEmpty then [] else [cur.reverse]
  | c :: cs =>
    if c == '\n' then (cur.reverse ++ ['\n']) :: readlinesGo [] cs
    else readlinesGo (c :: cur) cs

/-- The whole file content split into lines, as `f.readlines()` yields it. -/
def pyReadlines (content : Line) : List Line := readlinesGo [] content

/-- `process_file(path)` as a function from the file's old content (and the
supply of prompt responses) to its new content: read all lines, rewrite the
detected directive lines, and write everything back with `writelines`
(plain concatenation). -/
def process_file (content : Line) (resp : Nat → Line) : Line :=
  (processLines (pyReadlines content) resp 0).flatten

/-- The word `kw` (written in lowercase) occurs at the start of `t`,
case-insensitively, followed by a word boundary: the specification's reading
of `(scanfor|showtools)\b` anchored at the start of the detection string. -/
def wordAtStart (t kw : Line) : Prop :=
  (t.take kw.length).map Char.toLower = kw ∧ boundaryOk (t.drop kw.length) = true

/-- The specification's reading of directive-line detection, following the
regex `^#*\s*(scanfor|showtools)\b` (case-insensitive): the line decomposes
into a run of `#` characters, then whitespace, then `scanfor` or `showtools`
at a word boundary followed by anything. -/
def specDetected (line : Line) : Prop :=
  ∃ hs ws t, line = hs ++ ws ++ t ∧ (∀ c ∈ hs, c = '#') ∧
    (∀ c ∈ ws, isPySpace c = true) ∧
    (wordAtStart t scanforKw ∨ wordAtStart t showtoolsKw)

/-- The specification's reading of the parser's keyword/remainder split:
skip leading whitespace, skip the keyword (the first run of non-whitespace
characters), and skip the whitespace run after it; what is left is the
remainder, which is empty when the directive carries no items. -/
def specRemainder (l : Line) : Line :=
  ((l.dropWhile isPySpace).dropWhile (fun c => !isPySpace c)).dropWhile isPySpace

/-! ## Helper lemmas -/

theorem map_getD_range {α : Type} (l : List α) (d : α) :
    (List.range l.length).map (fun k => l.getD k d) = l := by
  induction l with
  | nil => rfl
  | cons a t ih =>
    rw [List.length_cons, List.range_succ_eq_map, List.map_cons, List.map_map]
    simp only [Function.comp_def, List.getD_cons_zero, List.getD_cons_succ]
    rw [ih]

theorem map_pyIndex_intRange (l : List Line) :
    (intRange l.length).map (pyIndex l) = l := by
  unfold intRange
  rw [List.map_map]
  have h : ∀ k ∈ List.range l.length,
      (pyIndex l ∘ Int.ofNat) k = l.getD k [] := by
    intro k _
    have h0 : (0 : Int) ≤ Int.ofNat k := Int.natCast_nonneg k
    simp [pyIndex, h0]
  rw [List.map_congr_left h, map_getD_range]

theorem sorted_intRange (n : Nat) : (intRange n).Sorted (· ≤ ·) :=
  List.Pairwise.map Int.ofNat (fun _ _ h => Int.ofNat_le.mpr (Nat.le_of_lt h))
    (List.sorted_lt_range n)

theorem pySorted_perm (l : List Int) : (pySorted l).Perm l :=
  List.perm_insertionSort _ l

theorem pySorted_sorted (l : List Int) : (pySorted l).Sorted (· ≤ ·) :=
  List.sorted_insertionSort _ l

theorem pySorted_eq_of_perm {l : List Int} {n : Nat} (h : l.Perm (intRange n)) :
    pySorted l = intRange n :=
  List.eq_of_perm_of_sorted ((pySorted_perm l).trans h) (pySorted_sorted l)
    (sorted_intRange n)

theorem perm_of_pySorted_eq {l : List Int} {n : Nat} (h : pySorted l = intRange n) :
    l.Perm (intRange n) :=
  (pySorted_perm l).symm.trans (by rw [h])

theorem pyIntList_eq_none {ts : List Line} (h : ∃ t ∈ ts, pyInt t = none) :
    pyIntList ts = none := by
  induction ts with
  | nil => rcases h with ⟨t, ht, _⟩; cases ht
  | cons a ts ih =>
    rcases h with ⟨t, ht, hnone⟩
    rcases List.mem_cons.mp ht with rfl | hmem
    · simp [pyIntList, hnone]
    · rw [pyIntList, ih ⟨t, hmem, hnone⟩]
      cases pyInt a <;> rfl

theorem pySplitWs_nil : pySplitWs [] = [] := rfl

theorem pyRstripWs_sublist (l : Line) : List.Sublist (pyRstripWs l) l := by
  rw [← List.reverse_sublist]
  unfold pyRstripWs
  rw [List.reverse_reverse]
  exact List.dropWhile_sublist _

theorem pyStrip_sublist (l : Line) : List.Sublist (pyStrip l) l :=
  (pyRstripWs_sublist _).trans (List.dropWhile_sublist _)

theorem dropWhile_dropWhile_self {α : Type} {p : α → Bool} (l : List α) :
    (l.dropWhile p).dropWhile p = l.dropWhile p := by
  induction l with
  | nil => rfl
  | cons a l ih =>
    by_cases h : p a
    · rw [List.dropWhile_cons_of_pos h]
      exact ih
    · rw [List.dropWhile_cons_of_neg h, List.dropWhile_cons_of_neg h]

theorem pyRstripWs_idem (l : Line) : pyRstripWs (pyRstripWs l) = pyRstripWs l := by
  unfold pyRstripWs
  rw [List.reverse_reverse, dropWhile_dropWhile_self]

theorem dropWhile_head_not {α : Type} {p : α → Bool} {l t : List α} {c : α}
    (h : l.dropWhile p = c :: t) : p c = false := by
  induction l with
  | nil => cases h
  | cons a l ih =>
    by_cases ha : p a
    · rw [List.dropWhile_cons_of_pos ha] at h
      exact ih h
    · rw [List.dropWhile_cons_of_neg ha] at h
      injection h with h1 _
      rw [← h1]
      simpa using ha

theorem pyRstripWs_cons (c : Char) (t : Line) :
    pyRstripWs (c :: t) = [] ∨ ∃ t2, pyRstripWs (c :: t) = c :: t2 := by
  unfold pyRstripWs
  rw [List.reverse_cons, List.dropWhile_append]
  split
  · by_cases hc : isPySpace c
    · left
      simp [hc]
    · right
      exact ⟨[], by simp [hc]⟩
  · right
    exact ⟨(t.reverse.dropWhile isPySpace).reverse, by rw [List.reverse_append]; rfl⟩

theorem pyLstripWs_pyStrip (l : Line) : pyLstripWs (pyStrip l) = pyStrip l := by
  unfold pyStrip
  cases h : pyLstripWs l with
  | nil => rfl
  | cons c t =>
    have hc : ¬ isPySpace c = true := by
      rw [dropWhile_head_not (p := isPySpace) (l := l) h]
      simp
    rcases pyRstripWs_cons c t with h2 | ⟨t2, h2⟩
    · rw [h2]; rfl
    · rw [h2]
      exact List.dropWhile_cons_of_neg hc

theorem pyStrip_idem (l : Line) : pyStrip (pyStrip l) = pyStrip l := by
  conv_lhs => rw [pyStrip]
  rw [pyLstripWs_pyStrip]
  show pyRstripWs (pyRstripWs (pyLstripWs l)) = _
  rw [pyRstripWs_idem]
  rfl

theorem head_not_space_of_stripped {t : Line} (h : pyStrip t = t) (hne : t ≠ []) :
    ∃ c t2, t = c :: t2 ∧ isPySpace c = false := by
  cases t with
  | nil => exact absurd rfl hne
  | cons c t2 =>
    refine ⟨c, t2, rfl, ?_⟩
    by_contra hc
    have hc2 : isPySpace c = true := by simpa using hc
    have hlen : (pyStrip (c :: t2)).length ≤ t2.length := by
      unfold pyStrip pyLstripWs
      rw [List.dropWhile_cons_of_pos hc2]
      calc (pyRstripWs (t2.dropWhile isPySpace)).length
          ≤ (t2.dropWhile isPySpace).length := (pyRstripWs_sublist _).length_le
        _ ≤ t2.length := (List.dropWhile_sublist _).length_le
    rw [h] at hlen
    simp at hlen

theorem mem_splitOnP_imp {α : Type} [DecidableEq α] {p : α → Bool} {l t : List α}
    {c : α} (ht : t ∈ l.splitOnP p) (hc : c ∈ t) : c ∈ l ∧ p c = false := by
  induction l generalizing t with
  | nil =>
    rw [List.splitOnP_nil] at ht
    rw [List.mem_singleton.mp ht] at hc
    cases hc
  | cons a l ih =>
    rw [List.splitOnP_cons] at ht
    by_cases ha : p a
    · rw [if_pos ha] at ht
      rcases List.mem_cons.mp ht with rfl | hmem
      · cases hc
      · have h2 := ih hmem hc
        exact ⟨List.mem_cons_of_mem _ h2.1, h2.2⟩
    · rw [if_neg ha] at ht
      cases hsp : l.splitOnP p with
      | nil => exact absurd hsp (List.splitOnP_ne_nil _ _)
      | cons h0 rest =>
        rw [hsp] at ht
        simp only [List.modifyHead] at ht
        rcases List.mem_cons.mp ht with rfl | hmem
        · rcases List.mem_cons.mp hc with rfl | hc2
          · exact ⟨List.mem_cons_self _ _, by simpa using ha⟩
          · have h2 := ih (t := h0) (by rw [hsp]; exact List.mem_cons_self _ _) hc2
            exact ⟨List.mem_cons_of_mem _ h2.1, h2.2⟩
        · have h2 := ih (t := t) (by rw [hsp]; exact List.mem_cons_of_mem _ hmem) hc
          exact ⟨List.mem_cons_of_mem _ h2.1, h2.2⟩

theorem intercalate_cons₂ (s t u : Line) (rest : List Line) :
    List.intercalate s (t :: u :: rest) = t ++ s ++ List.intercalate s (u :: rest) := by
  simp [List.intercalate, List.intersperse]

theorem mem_intercalate_comma {c : Char} {ts : List Line}
    (hc : c ∈ List.intercalate [','] ts) : c = ',' ∨ ∃ t ∈ ts, c ∈ t := by
  induction ts with
  | nil => simp [List.intercalate] at hc
  | cons t ts ih =>
    cases ts with
    | nil =>
      right
      refine ⟨t, List.mem_singleton.mpr rfl, ?_⟩
      simpa [List.intercalate] using hc
    | cons u rest =>
      rw [intercalate_cons₂] at hc
      rcases List.mem_append.mp hc with h | h
      · rcases List.mem_append.mp h with h2 | h2
        · exact Or.inr ⟨t, List.mem_cons_self _ _, h2⟩
        · exact Or.inl (List.mem_singleton.mp h2)
      · rcases ih h with h2 | ⟨v, hv, hcv⟩
        · exact Or.inl h2
        · exact Or.inr ⟨v, List.mem_cons_of_mem _ hv, hcv⟩

theorem pySplitNone1_cases (l : Line) :
    pySplitNone1 l = [] ∨
    (∃ w, pySplitNone1 l = [w]) ∨
    pySplitNone1 l =
      [(l.dropWhile isPySpace).takeWhile (fun c => !isPySpace c),
        ((l.dropWhile isPySpace).dropWhile (fun c => !isPySpace c)).dropWhile isPySpace] := by
  simp only [pySplitNone1]
  split
  · exact Or.inl rfl
  · split
    · exact Or.inr (Or.inl ⟨_, rfl⟩)
    · exact Or.inr (Or.inr rfl)

theorem pySplitNone1_second_sublist {l w r : Line} (h : pySplitNone1 l = [w, r]) :
    List.Sublist r l := by
  rcases pySplitNone1_cases l with h2 | ⟨w2, h2⟩ | h2 <;> rw [h2] at h
  · cases h
  · cases h
  · injection h with _ h3
    injection h3 with h4 _
    rw [← h4]
    exact ((List.dropWhile_sublist _).trans (List.dropWhile_sublist _)).trans
      (List.dropWhile_sublist _)

theorem parse_directive_token_facts {line t : Line} (ht : t ∈ parse_directive line) :
    pyStrip t = t ∧ t ≠ [] ∧
      ∀ c ∈ t, (c == ',') = false ∧ (c == '#') = false := by
  unfold parse_directive at ht
  split at ht
  case _ w rest heq =>
    rw [List.mem_filter] at ht
    obtain ⟨hmem, hne⟩ := ht
    rcases List.mem_map.mp hmem with ⟨piece, hpiece, rfl⟩
    refine ⟨pyStrip_idem piece, ?_, ?_⟩
    · intro h0
      rw [h0] at hne
      cases hne
    · intro c hc
      have hcp : c ∈ piece := (pyStrip_sublist piece).subset hc
      have h2 := mem_splitOnP_imp (p := (· == ',')) hpiece hcp
      refine ⟨h2.2, ?_⟩
      have hcr : c ∈ rest := h2.1
      have hcb : c ∈ beforeHash line :=
        (pySplitNone1_second_sublist heq).subset hcr
      have h3 := List.mem_takeWhile_imp hcb
      simpa [bne] using h3
  case _ =>
    cases ht

theorem toLower_of_pySpace {c : Char} (h : isPySpace c = true) :
    Char.toLower c = c := by
  unfold isPySpace at h
  simp only [Bool.or_eq_true, beq_iff_eq] at h
  rcases h with ((((h | h) | h) | h) | h) | h <;> subst h <;> decide

theorem name_chars {t kw : Line} (hkw : kw = scanforKw ∨ kw = showtoolsKw)
    (h : t.map Char.toLower = kw) :
    t ≠ [] ∧ ∀ c ∈ t, isPySpace c = false ∧ (c == '#') = false := by
  constructor
  · intro h0
    subst h0
    rcases hkw with rfl | rfl <;> cases h
  · intro c hc
    have hmem : Char.toLower c ∈ kw := h ▸ List.mem_map_of_mem _ hc
    constructor
    · by_contra hcs
      have hcs2 : isPySpace c = true := by simpa using hcs
      rw [toLower_of_pySpace hcs2] at hmem
      rcases hkw with rfl | rfl
      · simp only [scanforKw, List.mem_cons, List.not_mem_nil, or_false] at hmem
        rcases hmem with rfl | rfl | rfl | rfl | rfl | rfl | rfl <;>
          exact absurd hcs2 (by decide)
      · simp only [showtoolsKw, List.mem_cons, List.not_mem_nil, or_false] at hmem
        rcases hmem with rfl | rfl | rfl | rfl | rfl | rfl | rfl | rfl | rfl <;>
          exact absurd hcs2 (by decide)
    · by_cases hch : c = '#'
      · subst hch
        have hlow : Char.toLower '#' = '#' := by decide
        rw [hlow] at hmem
        rcases hkw with rfl | rfl <;> exact absurd hmem (by decide)
      · simp [hch]

theorem matchKw_facts {s kw t : Line} (h : matchKw s kw = some t) :
    t = s.take kw.length ∧ t.map Char.toLower = kw ∧
      boundaryOk (s.drop kw.length) = true := by
  unfold matchKw at h
  split at h
  case _ hcond =>
    injection h with h1
    exact ⟨h1.symm, h1 ▸ hcond.1, hcond.2⟩
  case _ =>
    cases h

theorem detect_cases {s name : Line} (h : detectDirective s = some name) :
    matchKw s scanforKw = some name ∨ matchKw s showtoolsKw = some name := by
  unfold detectDirective at h
  split at h
  case _ t heq =>
    injection h with h1
    rw [← h1]
    exact Or.inl heq
  case _ =>
    exact Or.inr h

theorem name_facts {s name : Line} (h : detectDirective s = some name) :
    (name.map Char.toLower = scanforKw ∨ name.map Char.toLower = showtoolsKw) ∧
      name ≠ [] ∧ (∀ c ∈ name, isPySpace c = false ∧ (c == '#') = false) ∧
      name = s.take name.length := by
  rcases detect_cases h with h2 | h2 <;> obtain ⟨h3, h4, _⟩ := matchKw_facts h2
  · have h5 := name_chars (Or.inl rfl) h4
    refine ⟨Or.inl h4, h5.1, h5.2, ?_⟩
    have hlen : name.length = scanforKw.length := by
      rw [← h4, List.length_map]
    rw [hlen, ← h3]
  · have h5 := name_chars (Or.inr rfl) h4
    refine ⟨Or.inr h4, h5.1, h5.2, ?_⟩
    have hlen : name.length = showtoolsKw.length := by
      rw [← h4, List.length_map]
    rw [hlen, ← h3]

theorem processLines_cons_detected {line : Line} {rest : List Line}
    {resp : Nat → Line} {k : Nat} {name : Line}
    (hdet : detectDirective (strippedOf line) = some name)
    (hne : parse_directive (strippedOf line) ≠ []) :
    processLines (line :: rest) resp k =
      format_directive name ((reorder (parse_directive (strippedOf line)) (resp k)).1)
        :: processLines rest resp (k + 1) := by
  have hemp : (parse_directive (strippedOf line)).isEmpty = false := by
    cases hp : parse_directive (strippedOf line) with
    | nil => exact absurd hp hne
    | cons a l => rfl
  simp only [processLines, hdet, hemp]
  rfl

theorem processLines_cons_passthrough {line : Line} {rest : List Line}
    {resp : Nat → Line} {k : Nat}
    (h : detectDirective (strippedOf line) = none ∨
      parse_directive (strippedOf line) = []) :
    processLines (line :: rest) resp k = line :: processLines rest resp k := by
  rcases h with h | h
  · simp only [processLines, h]
  · cases hdet : detectDirective (strippedOf line) with
    | none => simp only [processLines, hdet]
    | some name =>
      have hemp : (parse_directive (strippedOf line)).isEmpty = true := by
        rw [h]
        rfl
      simp only [processLines, hdet, hemp]
      rfl

/-! ## Claims about the Interactive Reorderer -/

/-- C8: when the response is empty after trimming surrounding whitespace,
`reorder` returns the token sequence itself, unchanged and in order, and
prints no invalid-input message. -/
theorem reorder_keeps_on_empty_response (items : List Line) (response : Line)
    (h : pyStrip response = []) : reorder items response = (items, false) := by
  unfold reorder
  rw [if_pos h]

/-- Closed instance of `reorder_keeps_on_empty_response`. -/
theorem reorder_keeps_on_empty_response_case :
    pyStrip ("  ".toList) = [] ∧
      reorder ["a".toList, "b".toList] ("  ".toList) = (["a".toList, "b".toList], false) :=
  ⟨by decide, reorder_keeps_on_empty_response _ _ (by decide)⟩

theorem reorder_fst_perm (items : List Line) (response : Line) :
    ((reorder items response).1).Perm items := by
  simp only [reorder]
  split
  · exact List.Perm.refl _
  · split
    · exact List.Perm.refl _
    · split
      · next hs =>
        have hperm := perm_of_pySorted_eq hs
        have h2 := hperm.map (pyIndex items)
        rw [map_pyIndex_intRange] at h2
        exact h2
      · exact List.Perm.refl _

/-- C5: whatever the response string is, the sequence returned by `reorder`
is a permutation of the input tokens: same length, same multiset of token
strings, no token added, removed or altered. -/
theorem reorder_result_perm (items : List Line) (response : Line) :
    ((reorder items response).1).Perm items :=
  reorder_fst_perm items response

/-- C4: a response that is nonempty after trimming and either contains a
token that does not parse as an integer, or whose decremented indices are
not exactly a permutation of `0..len(items)-1`, makes `reorder` print the
invalid-input message and return the tokens unchanged; the function is
total, so it never raises or aborts. -/
theorem reorder_invalid_input (items : List Line) (response : Line)
    (hne : pyStrip response ≠ [])
    (hbad : (∃ t ∈ pySplitWs (pyStrip response), pyInt t = none) ∨
      ∀ ns, pyIntList (pySplitWs (pyStrip response)) = some ns →
        ¬ (ns.map (fun n => n - 1)).Perm (intRange items.length)) :
    reorder items response = (items, true) := by
  simp only [reorder]
  rw [if_neg hne]
  cases hcase : pyIntList (pySplitWs (pyStrip response)) with
  | none => rfl
  | some ns =>
    rcases hbad with hex | hall
    · rw [pyIntList_eq_none hex] at hcase
      cases hcase
    · have hnp : pySorted (ns.map (fun n => n - 1)) ≠ intRange items.length := by
        intro hs
        exact hall ns hcase (perm_of_pySorted_eq hs)
      simp only [if_neg hnp]

/-- Closed instance of `reorder_invalid_input`: a duplicated index. -/
theorem reorder_invalid_input_case :
    pyStrip ("2 2 3".toList) ≠ [] ∧
      reorder ["a".toList, "b".toList, "c".toList] ("2 2 3".toList) =
        (["a".toList, "b".toList, "c".toList], true) := by
  refine ⟨by decide, reorder_invalid_input _ _ (by decide) (Or.inr ?_)⟩
  intro ns h
  have h2 : pyIntList (pySplitWs (pyStrip ("2 2 3".toList))) = some [2, 2, 3] := by decide
  rw [h2] at h
  cases h
  decide

/-- C1: a response parsing to a space-separated list of integers that is a
permutation of `1..N` (with `N = len(items) ≥ 1`) makes `reorder` return
`[items[p - 1] for p in P]`: the tokens rearranged by the entered
permutation of one-based positions, with no invalid-input message. -/
theorem reorder_applies_permutation (items : List Line) (response : Line)
    (ns : List Int) (hne : items ≠ [])
    (hparse : pyIntList (pySplitWs (pyStrip response)) = some ns)
    (hperm : ns.Perm ((List.range items.length).map (fun k => Int.ofNat k + 1))) :
    reorder items response =
      (ns.map (fun p => items.getD (p - 1).toNat []), false) := by
  have hstrip : pyStrip response ≠ [] := by
    intro h0
    rw [h0, pySplitWs_nil] at hparse
    have hns : ns = [] := by
      simpa [pyIntList] using hparse.symm
    subst hns
    have hlen := hperm.length_eq
    simp at hlen
    exact hne (List.length_eq_zero.mp hlen.symm)
  have hidx : (ns.map (fun n => n - 1)).Perm (intRange items.length) := by
    have h1 := hperm.map (fun n => n - 1)
    rw [List.map_map] at h1
    have hcomp : ((fun n : Int => n - 1) ∘ fun k => Int.ofNat k + 1) = Int.ofNat := by
      funext k
      simp
    rw [hcomp] at h1
    exact h1
  simp only [reorder]
  rw [if_neg hstrip, hparse]
  simp only [if_pos (pySorted_eq_of_perm hidx)]
  rw [List.map_map]
  refine congrArg (fun l => (l, false)) (List.map_congr_left ?_)
  intro p hp
  have hmem : p - 1 ∈ intRange items.length := by
    exact hidx.mem_iff.mp (List.mem_map_of_mem _ hp)
  rcases List.mem_map.mp hmem with ⟨k, _, hk⟩
  have h0 : (0 : Int) ≤ p - 1 := by
    rw [← hk]
    exact Int.natCast_nonneg k
  simp [pyIndex, h0]

/-- Closed instance of `reorder_applies_permutation` on three tokens. -/
theorem reorder_applies_permutation_case :
    (["internal".toList, "hdbios".toList, "biosexternal".toList] : List Line) ≠ [] ∧
    pyIntList (pySplitWs (pyStrip ("2 1 3".toList))) = some [2, 1, 3] ∧
    ([2, 1, 3] : List Int).Perm
      ((List.range
        (["internal".toList, "hdbios".toList, "biosexternal".toList] : List Line).length).map
          (fun k => Int.ofNat k + 1)) ∧
    reorder ["internal".toList, "hdbios".toList, "biosexternal".toList] ("2 1 3".toList) =
      (([2, 1, 3] : List Int).map
        (fun p =>
          (["internal".toList, "hdbios".toList, "biosexternal".toList] : List Line).getD
            (p - 1).toNat []), false) :=
  ⟨by decide, by decide, by decide,
    reorder_applies_permutation _ _ _ (by decide) (by decide) (by decide)⟩

/-! ## End-to-end claim -/

/-- C9: running the File Processor on a file whose sole line is
`scanfor internal,hdbios,biosexternal\n`, with the user entering `2 1 3` at
the prompt, rewrites the file content to
`scanfor hdbios,internal,biosexternal\n`. -/
theorem process_file_end_to_end :
    process_file ("scanfor internal,hdbios,biosexternal\n".toList)
      (fun _ => "2 1 3".toList) =
      "scanfor hdbios,internal,biosexternal\n".toList := by
  decide

/-! ## Claims about the File Processor -/

theorem wordAtStart_head {t kr : Line} {k0 : Char}
    (h : (t.take (k0 :: kr).length).map Char.toLower = k0 :: kr) :
    ∃ c t2, t = c :: t2 ∧ Char.toLower c = k0 := by
  cases t with
  | nil => simp at h
  | cons c t2 =>
    rw [List.length_cons, List.take_succ_cons, List.map_cons] at h
    injection h with h1 _
    exact ⟨c, t2, rfl, h1⟩

theorem head_s_facts {c : Char} (h : Char.toLower c = 's') :
    isPySpace c = false ∧ (c == '#') = false := by
  constructor
  · by_contra hcs
    have hcs2 : isPySpace c = true := by simpa using hcs
    rw [toLower_of_pySpace hcs2] at h
    subst h
    exact absurd hcs2 (by decide)
  · by_cases hch : c = '#'
    · subst hch
      exact absurd h (by decide)
    · simp [hch]

/-- C2: on a detected directive line whose parsed token list is nonempty,
the File Processor replaces the line, whatever the user's response, with the
Formatter output `<name> <token1>,<token2>,...,<tokenN>` followed by a
single newline; the replacement contains no `#` character at all, so the
original line's leading `#` run, leading whitespace and inline comment text
are dropped even when the user keeps the original order (a commented-out
directive line is thereby uncommented). -/
theorem directive_line_rewritten (line : Line) (rest : List Line)
    (resp : Nat → Line) (k : Nat) (name : Line)
    (hdet : detectDirective (strippedOf line) = some name)
    (hne : parse_directive (strippedOf line) ≠ []) :
    processLines (line :: rest) resp k =
      (name ++ ' ' ::
          List.intercalate [',']
            ((reorder (parse_directive (strippedOf line)) (resp k)).1) ++
        ['\n']) :: processLines rest resp (k + 1) ∧
    '#' ∉ (name ++ ' ' ::
        List.intercalate [',']
          ((reorder (parse_directive (strippedOf line)) (resp k)).1) ++
      ['\n']) := by
  constructor
  · rw [processLines_cons_detected hdet hne]
    rfl
  · intro hmem
    rcases List.mem_append.mp hmem with h1 | h1
    · rcases List.mem_append.mp h1 with h2 | h2
      · exact absurd ((name_facts hdet).2.2.1 _ h2).2 (by decide)
      · rcases List.mem_cons.mp h2 with h3 | h3
        · exact absurd h3 (by decide)
        · rcases mem_intercalate_comma h3 with h4 | ⟨t, ht, hct⟩
          · exact absurd h4 (by decide)
          · have htp : t ∈ parse_directive (strippedOf line) :=
              (reorder_fst_perm _ _).subset ht
            exact absurd (((parse_directive_token_facts htp).2.2 _ hct).2) (by decide)
    · exact absurd (List.mem_singleton.mp h1) (by decide)

/-- Closed instance of `directive_line_rewritten`: a commented-out `scanfor`
line with an inline comment, kept in its original order, is rewritten
uncommented and with the comment dropped. -/
theorem directive_line_rewritten_case :
    detectDirective (strippedOf ("#scanfor internal,hdbios # note\n".toList)) =
      some ("scanfor".toList) ∧
    parse_directive (strippedOf ("#scanfor internal,hdbios # note\n".toList)) ≠ [] ∧
    (processLines ["#scanfor internal,hdbios # note\n".toList] (fun _ => []) 0 =
      ("scanfor".toList ++ ' ' ::
          List.intercalate [',']
            ((reorder
              (parse_directive (strippedOf ("#scanfor internal,hdbios # note\n".toList)))
              []).1) ++
        ['\n']) :: processLines [] (fun _ => []) 1 ∧
      '#' ∉ ("scanfor".toList ++ ' ' ::
          List.intercalate [',']
            ((reorder
              (parse_directive (strippedOf ("#scanfor internal,hdbios # note\n".toList)))
              []).1) ++
        ['\n'])) :=
  ⟨by decide, by decide,
    directive_line_rewritten "#scanfor internal,hdbios # note\n".toList [] (fun _ => []) 0
      "scanfor".toList (by decide) (by decide)⟩

/-- C10: detection is case-insensitive, but the rewritten line begins with
the keyword spelled exactly as in the original line: the detected name is
the original-case text at the start of the stripped line (its lowercasing
being `scanfor` or `showtools`), and the replacement line starts with that
very text. -/
theorem rewritten_line_keeps_case (line : Line) (rest : List Line)
    (resp : Nat → Line) (k : Nat) (name : Line)
    (hdet : detectDirective (strippedOf line) = some name)
    (hne : parse_directive (strippedOf line) ≠ []) :
    name = (strippedOf line).take name.length ∧
    (name.map Char.toLower = scanforKw ∨ name.map Char.toLower = showtoolsKw) ∧
    processLines (line :: rest) resp k =
      format_directive name
          ((reorder (parse_directive (strippedOf line)) (resp k)).1)
        :: processLines rest resp (k + 1) ∧
    (format_directive name
        ((reorder (parse_directive (strippedOf line)) (resp k)).1)).take name.length =
      name := by
  obtain ⟨hlow, _, _, htake⟩ := name_facts hdet
  refine ⟨htake, hlow, processLines_cons_detected hdet hne, ?_⟩
  unfold format_directive
  rw [List.append_assoc]
  exact List.take_left name _

/-- Closed instance of `rewritten_line_keeps_case`: a `ShowTools` line keeps
its mixed-case spelling in the rewritten output. -/
theorem rewritten_line_keeps_case_case :
    detectDirective (strippedOf ("#ShowTools shell,about\n".toList)) =
      some ("ShowTools".toList) ∧
    parse_directive (strippedOf ("#ShowTools shell,about\n".toList)) ≠ [] ∧
    ("ShowTools".toList = (strippedOf ("#ShowTools shell,about\n".toList)).take
        ("ShowTools".toList).length ∧
      (("ShowTools".toList).map Char.toLower = scanforKw ∨
        ("ShowTools".toList).map Char.toLower = showtoolsKw) ∧
      processLines ["#ShowTools shell,about\n".toList] (fun _ => []) 0 =
        format_directive "ShowTools".toList
            ((reorder
              (parse_directive (strippedOf ("#ShowTools shell,about\n".toList)))
              []).1)
          :: processLines [] (fun _ => []) 1 ∧
      (format_directive "ShowTools".toList
          ((reorder
            (parse_directive (strippedOf ("#ShowTools shell,about\n".toList)))
            []).1)).take ("ShowTools".toList).length =
        "ShowTools".toList) :=
  ⟨by decide, by decide,
    rewritten_line_keeps_case "#ShowTools shell,about\n".toList [] (fun _ => []) 0
      "ShowTools".toList (by decide) (by decide)⟩

/-- C3: a line is detected exactly when, after removing its leading run of
`#` characters and then leading whitespace, the remainder begins with
`scanfor` or `showtools` as a whole word, case-insensitively (the regex
`^#*\s*(scanfor|showtools)\b`); and a line that is not detected, or a
detected line whose parsed token list is empty, passes into the output
exactly as it was read. -/
theorem detection_and_passthrough :
    (∀ line : Line,
      (detectDirective (strippedOf line)).isSome = true ↔ specDetected line) ∧
    (∀ (line : Line) (rest : List Line) (resp : Nat → Line) (k : Nat),
      detectDirective (strippedOf line) = none ∨
        parse_directive (strippedOf line) = [] →
      processLines (line :: rest) resp k = line :: processLines rest resp k) := by
  constructor
  · intro line
    constructor
    · intro h
      rcases Option.isSome_iff_exists.mp h with ⟨name, hname⟩
      refine ⟨line.takeWhile (· == '#'),
        (line.dropWhile (· == '#')).takeWhile isPySpace, strippedOf line,
        ?_, ?_, ?_, ?_⟩
      · simp only [strippedOf, pyLstripWs, pyLstripHash]
        rw [List.append_assoc, List.takeWhile_append_dropWhile,
          List.takeWhile_append_dropWhile]
      · intro c hc
        simpa using List.mem_takeWhile_imp hc
      · intro c hc
        exact List.mem_takeWhile_imp hc
      · rcases detect_cases hname with h2 | h2 <;>
          obtain ⟨h3, hmap, hbd⟩ := matchKw_facts h2
        · exact Or.inl ⟨by rw [← h3]; exact hmap, hbd⟩
        · exact Or.inr ⟨by rw [← h3]; exact hmap, hbd⟩
    · rintro ⟨hs, ws, t, rfl, hhs, hws, hword⟩
      have hhead : ∃ c t2, t = c :: t2 ∧ isPySpace c = false ∧ (c == '#') = false := by
        rcases hword with hw | hw
        · obtain ⟨c, t2, rfl, hlow⟩ := wordAtStart_head hw.1
          exact ⟨c, t2, rfl, head_s_facts hlow⟩
        · obtain ⟨c, t2, rfl, hlow⟩ := wordAtStart_head hw.1
          exact ⟨c, t2, rfl, head_s_facts hlow⟩
      obtain ⟨c, t2, rfl, hsp, hhash⟩ := hhead
      have hstr : strippedOf (hs ++ ws ++ c :: t2) = c :: t2 := by
        simp only [strippedOf, pyLstripWs, pyLstripHash]
        rw [List.append_assoc,
          List.dropWhile_append_of_pos (fun a ha => by rw [hhs a ha]; decide)]
        cases ws with
        | nil =>
          rw [List.nil_append, List.dropWhile_cons_of_neg (by simp [hhash]),
            List.dropWhile_cons_of_neg (by simp [hsp])]
        | cons w0 ws2 =>
          have hw0 : isPySpace w0 = true := hws w0 (List.mem_cons_self _ _)
          have hw0h : (w0 == '#') = false := by
            by_cases hh : w0 = '#'
            · subst hh
              exact absurd hw0 (by decide)
            · simp [hh]
          rw [List.cons_append, List.dropWhile_cons_of_neg (by simp [hw0h]),
            List.dropWhile_cons_of_pos hw0,
            List.dropWhile_append_of_pos (fun a ha => hws a (List.mem_cons_of_mem _ ha)),
            List.dropWhile_cons_of_neg (by simp [hsp])]
      rw [hstr]
      rcases hword with hw | hw
      · have hm : matchKw (c :: t2) scanforKw = some ((c :: t2).take scanforKw.length) := by
          unfold matchKw
          rw [if_pos ⟨hw.1, hw.2⟩]
        simp [detectDirective, hm]
      · cases hsc : matchKw (c :: t2) scanforKw with
        | some u => simp [detectDirective, hsc]
        | none =>
          have hm : matchKw (c :: t2) showtoolsKw =
              some ((c :: t2).take showtoolsKw.length) := by
            unfold matchKw
            rw [if_pos ⟨hw.1, hw.2⟩]
          simp [detectDirective, hsc, hm]
  · intro line rest resp k h
    exact processLines_cons_passthrough h

/-- Closed instance of `detection_and_passthrough`: a comment line that is
not a directive passes through unchanged. -/
theorem detection_and_passthrough_case :
    processLines ["# just a note\n".toList] (fun _ => []) 0 =
      "# just a note\n".toList :: processLines [] (fun _ => []) 0 :=
  detection_and_passthrough.2 "# just a note\n".toList [] (fun _ => []) 0
    (Or.inl (by decide))

/-! ## Claims about the Parser and Formatter -/

theorem pySplitNone1_eq (l : Line) :
    (l.dropWhile isPySpace = [] ∧ pySplitNone1 l = []) ∨
    (l.dropWhile isPySpace ≠ [] ∧ specRemainder l = [] ∧
      pySplitNone1 l = [(l.dropWhile isPySpace).takeWhile (fun c => !isPySpace c)]) ∨
    (l.dropWhile isPySpace ≠ [] ∧ specRemainder l ≠ [] ∧
      pySplitNone1 l =
        [(l.dropWhile isPySpace).takeWhile (fun c => !isPySpace c), specRemainder l]) := by
  by_cases h1 : l.dropWhile isPySpace = []
  · refine Or.inl ⟨h1, ?_⟩
    simp only [pySplitNone1]
    rw [if_pos (by simp [h1])]
  · by_cases h2 : specRemainder l = []
    · refine Or.inr (Or.inl ⟨h1, h2, ?_⟩)
      simp only [pySplitNone1]
      rw [if_neg (by simp [List.isEmpty_iff, h1]),
        if_pos (by simpa [List.isEmpty_iff, specRemainder] using h2)]
    · refine Or.inr (Or.inr ⟨h1, h2, ?_⟩)
      simp only [pySplitNone1]
      rw [if_neg (by simp [List.isEmpty_iff, h1]),
        if_neg (by simpa [List.isEmpty_iff, specRemainder] using h2)]
      rfl

/-- C6: the parser first discards everything from the first `#` character
onward, then splits off the keyword at the first run of whitespace; it
returns the empty list when there is no remainder, and otherwise the
remainder's comma-separated pieces with surrounding whitespace trimmed and
empty pieces dropped, in left-to-right source order with no other change;
in particular `scanfor manual,internal # comment` parses to
`["manual", "internal"]`. -/
theorem parse_directive_characterization :
    (∀ line : Line, parse_directive line =
      (((specRemainder (beforeHash line)).splitOn ',').map pyStrip).filter
        (fun t => !t.isEmpty)) ∧
    parse_directive ("scanfor manual,internal # comment".toList) =
      ["manual".toList, "internal".toList] := by
  constructor
  · intro line
    rcases pySplitNone1_eq (beforeHash line) with ⟨h1, h⟩ | ⟨_, h2, h⟩ | ⟨_, _, h⟩
    · have hr : specRemainder (beforeHash line) = [] := by
        simp only [specRemainder]
        rw [h1]
        rfl
      unfold parse_directive
      rw [h, hr]
      rfl
    · unfold parse_directive
      rw [h, h2]
      rfl
    · unfold parse_directive
      rw [h]
  · decide

theorem pyRstripWs_append_spaces {t s : Line} (hs : ∀ c ∈ s, isPySpace c = true) :
    pyRstripWs (t ++ s) = pyRstripWs t := by
  unfold pyRstripWs
  rw [List.reverse_append,
    List.dropWhile_append_of_pos (fun a ha => hs a (List.mem_reverse.mp ha))]

theorem pyStrip_append_spaces {t s : Line} (ht : pyStrip t = t) (hne : t ≠ [])
    (hs : ∀ c ∈ s, isPySpace c = true) : pyStrip (t ++ s) = t := by
  obtain ⟨c, t2, heq, hc⟩ := head_not_space_of_stripped ht hne
  have hl : pyLstripWs t = t := by
    rw [heq]
    exact List.dropWhile_cons_of_neg (by simp [hc])
  have hr : pyRstripWs t = t := by
    have h2 := ht
    simp only [pyStrip] at h2
    rwa [hl] at h2
  have hlts : pyLstripWs (t ++ s) = t ++ s := by
    rw [heq, List.cons_append]
    exact List.dropWhile_cons_of_neg (by simp [hc])
  simp only [pyStrip]
  rw [hlts, pyRstripWs_append_spaces hs, hr]

theorem intercalate_cons_shape (s t : Line) (ts : List Line) :
    ∃ z, List.intercalate s (t :: ts) = t ++ z := by
  cases ts with
  | nil => exact ⟨[], by simp [List.intercalate]⟩
  | cons u rest =>
    exact ⟨s ++ List.intercalate s (u :: rest),
      by rw [intercalate_cons₂, List.append_assoc]⟩

theorem splitOn_intercalate_append (s : Line) (hs : ∀ c ∈ s, (c == ',') = false) :
    ∀ (ts : List Line) (hts : ts ≠ []),
      (∀ t ∈ ts, ∀ c ∈ t, (c == ',') = false) →
      (List.intercalate [','] ts ++ s).splitOn ',' =
        ts.dropLast ++ [ts.getLast hts ++ s] := by
  intro ts
  induction ts with
  | nil => intro hts _; exact absurd rfl hts
  | cons t ts ih =>
    intro hts hcomma
    cases ts with
    | nil =>
      have h1 : List.intercalate [','] [t] = t := by simp [List.intercalate]
      show (List.intercalate [','] [t] ++ s).splitOnP (· == ',') = [] ++ [t ++ s]
      rw [h1, List.nil_append]
      apply List.splitOnP_eq_single
      intro x hx
      rcases List.mem_append.mp hx with h2 | h2
      · simp [hcomma t (List.mem_singleton.mpr rfl) x h2]
      · simp [hs x h2]
    | cons u rest =>
      have hassoc : List.intercalate [','] (t :: u :: rest) ++ s =
          t ++ (',' :: (List.intercalate [','] (u :: rest) ++ s)) := by
        rw [intercalate_cons₂]
        simp [List.append_assoc]
      show (List.intercalate [','] (t :: u :: rest) ++ s).splitOnP (· == ',') = _
      rw [hassoc,
        List.splitOnP_first _ _
          (fun x hx => by simp [hcomma t (List.mem_cons_self _ _) x hx]) ','
          (by decide) _]
      have hrec := ih (List.cons_ne_nil u rest)
        (fun v hv c hc => hcomma v (List.mem_cons_of_mem _ hv) c hc)
      show t :: (List.intercalate [','] (u :: rest) ++ s).splitOnP (· == ',') = _
      rw [show (List.intercalate [','] (u :: rest) ++ s).splitOnP (· == ',') =
          (List.intercalate [','] (u :: rest) ++ s).splitOn ',' from rfl, hrec]
      rw [List.dropLast_cons₂, List.cons_append,
        List.getLast_cons (List.cons_ne_nil u rest)]

/-- C7: parsing the Formatter's output returns exactly the formatted tokens:
`parse_directive` is a left inverse of `format_directive` on every token
list produced by `parse_directive`, for every detected directive name, so a
parse-format round trip preserves the token sequence and order, the inline
comment removed by the first parse being the only information lost. -/
theorem parse_format_roundtrip (s line name : Line) (ts : List Line)
    (hname : detectDirective s = some name)
    (hts : ts = parse_directive line) :
    parse_directive (format_directive name ts) = ts := by
  obtain ⟨_, hnne, hnchars, _⟩ := name_facts hname
  have htok : ∀ t ∈ ts, pyStrip t = t ∧ t ≠ [] ∧
      ∀ c ∈ t, (c == ',') = false ∧ (c == '#') = false := by
    intro t ht
    exact parse_directive_token_facts (hts ▸ ht)
  obtain ⟨c0, n2, hn0⟩ : ∃ c0 n2, name = c0 :: n2 := by
    cases name with
    | nil => exact absurd rfl hnne
    | cons a b => exact ⟨a, b, rfl⟩
  have hc0 : isPySpace c0 = false :=
    (hnchars c0 (by rw [hn0]; exact List.mem_cons_self _ _)).1
  have hnohash : ∀ c ∈ format_directive name ts, (c != '#') = true := by
    intro c hc
    simp only [format_directive] at hc
    rcases List.mem_append.mp hc with h1 | h1
    · rcases List.mem_append.mp h1 with h2 | h2
      · have h3 := (hnchars c h2).2
        simp [bne, h3]
      · rcases List.mem_cons.mp h2 with rfl | h3
        · decide
        · rcases mem_intercalate_comma h3 with rfl | ⟨t, htm, hct⟩
          · decide
          · have h4 := ((htok t htm).2.2 c hct).2
            simp [bne, h4]
    · rw [List.mem_singleton.mp h1]
      decide
  have hbh : beforeHash (format_directive name ts) = format_directive name ts := by
    simp only [beforeHash]
    exact List.takeWhile_eq_self_iff.mpr hnohash
  have hF : format_directive name ts =
      name ++ (' ' :: (List.intercalate [','] ts ++ ['\n'])) := by
    simp [format_directive, List.append_assoc]
  have hname_pos : ∀ a ∈ name, (fun c => !isPySpace c) a = true := by
    intro a ha
    simp [(hnchars a ha).1]
  have hlstrip : (format_directive name ts).dropWhile isPySpace =
      format_directive name ts := by
    conv_lhs => rw [hF, hn0, List.cons_append]
    rw [List.dropWhile_cons_of_neg (by simp [hc0])]
    rw [hF, hn0, List.cons_append]
  have hw : (format_directive name ts).takeWhile (fun c => !isPySpace c) = name := by
    rw [hF, List.takeWhile_append_of_pos hname_pos,
      List.takeWhile_cons_of_neg (by decide)]
    exact List.append_nil name
  have hd : (format_directive name ts).dropWhile (fun c => !isPySpace c) =
      ' ' :: (List.intercalate [','] ts ++ ['\n']) := by
    rw [hF, List.dropWhile_append_of_pos hname_pos]
    exact List.dropWhile_cons_of_neg (by decide)
  cases ts with
  | nil =>
    have hr : ((format_directive name []).dropWhile
        (fun c => !isPySpace c)).dropWhile isPySpace = [] := by
      rw [hd, List.dropWhile_cons_of_pos (by decide)]
      decide
    have hFne : (format_directive name []).isEmpty = false := by
      rw [hF, hn0, List.cons_append]
      rfl
    have hsplit : pySplitNone1 (format_directive name []) = [name] := by
      simp only [pySplitNone1]
      rw [hlstrip, hFne, hw, hr]
      rfl
    unfold parse_directive
    rw [hbh, hsplit]
  | cons t1 ts2 =>
    have ht1 := htok t1 (List.mem_cons_self _ _)
    obtain ⟨d0, d2, hd0, hd0s⟩ := head_not_space_of_stripped ht1.1 ht1.2.1
    obtain ⟨z, hz⟩ := intercalate_cons_shape [','] t1 ts2
    have hY : List.intercalate [','] (t1 :: ts2) ++ ['\n'] =
        d0 :: (d2 ++ z ++ ['\n']) := by
      rw [hz, hd0]
      simp [List.cons_append, List.append_assoc]
    have hr2 : ((format_directive name (t1 :: ts2)).dropWhile
        (fun c => !isPySpace c)).dropWhile isPySpace =
        List.intercalate [','] (t1 :: ts2) ++ ['\n'] := by
      rw [hd, List.dropWhile_cons_of_pos (by decide), hY]
      exact List.dropWhile_cons_of_neg (by simp [hd0s])
    have hFne2 : (format_directive name (t1 :: ts2)).isEmpty = false := by
      rw [hF, hn0, List.cons_append]
      rfl
    have hYne : (List.intercalate [','] (t1 :: ts2) ++ ['\n']).isEmpty = false := by
      rw [hY]
      rfl
    have hsplit : pySplitNone1 (format_directive name (t1 :: ts2)) =
        [name, List.intercalate [','] (t1 :: ts2) ++ ['\n']] := by
      simp only [pySplitNone1]
      rw [hlstrip, hFne2, hw, hr2, hYne]
      rfl
    unfold parse_directive
    rw [hbh, hsplit]
    show ((((List.intercalate [','] (t1 :: ts2) ++ ['\n']).splitOn ',').map
        pyStrip).filter (fun t => !t.isEmpty)) = t1 :: ts2
    rw [splitOn_intercalate_append ['\n'] (by decide) (t1 :: ts2)
      (List.cons_ne_nil _ _) (fun t ht c hc => ((htok t ht).2.2 c hc).1)]
    rw [List.map_append]
    have hmap1 : (t1 :: ts2).dropLast.map pyStrip = (t1 :: ts2).dropLast := by
      have h2 : ∀ t ∈ (t1 :: ts2).dropLast, pyStrip t = t := by
        intro t ht
        exact (htok t ((List.dropLast_sublist (t1 :: ts2)).subset ht)).1
      calc (t1 :: ts2).dropLast.map pyStrip
          = (t1 :: ts2).dropLast.map id := List.map_congr_left h2
        _ = (t1 :: ts2).dropLast := List.map_id _
    have hlast_mem : (t1 :: ts2).getLast (List.cons_ne_nil _ _) ∈ t1 :: ts2 :=
      List.getLast_mem _
    have hmap2 : pyStrip ((t1 :: ts2).getLast (List.cons_ne_nil _ _) ++ ['\n']) =
        (t1 :: ts2).getLast (List.cons_ne_nil _ _) := by
      have hfacts := htok _ hlast_mem
      refine pyStrip_append_spaces hfacts.1 hfacts.2.1 ?_
      intro c hc
      rw [List.mem_singleton.mp hc]
      decide
    rw [List.map_singleton, hmap1, hmap2]
    have hall : ∀ a ∈ (t1 :: ts2).dropLast ++ [(t1 :: ts2).getLast
        (List.cons_ne_nil _ _)], (fun t : Line => !t.isEmpty) a = true := by
      intro a ha
      have hane : a ≠ [] := by
        rcases List.mem_append.mp ha with h1 | h1
        · exact (htok a ((List.dropLast_sublist _).subset h1)).2.1
        · rw [List.mem_singleton.mp h1]
          exact (htok _ hlast_mem).2.1
      cases a with
      | nil => exact absurd rfl hane
      | cons x xs => rfl
    rw [List.filter_eq_self.mpr hall]
    exact List.dropLast_append_getLast (List.cons_ne_nil _ _)

/-- Closed instance of `parse_format_roundtrip`. -/
theorem parse_format_roundtrip_case :
    detectDirective ("scanfor a,b".toList) = some ("scanfor".toList) ∧
    ["manual".toList, "internal".toList] =
      parse_directive ("scanfor manual, internal ,\n".toList) ∧
    parse_directive
        (format_directive ("scanfor".toList)
          ["manual".toList, "internal".toList]) =
      ["manual".toList, "internal".toList] :=
  ⟨by decide, by decide,
    parse_format_roundtrip ("scanfor a,b".toList)
      ("scanfor manual, internal ,\n".toList) ("scanfor".toList)
      ["manual".toList, "internal".toList] (by decide) (by decide)⟩

end RefindGrid
